import Mathlib

/-!
Verification development for the robot_format_converter repository.

Every definition below is a shallow embedding of a function of the Python
source (schema.py, parsers.py, exporters.py, core.py, utils.py); the doc
comment of each definition names the function it embeds.  Python floats are
modelled as real numbers, Python strings as Lean strings, XML element trees
as plain Lean structures carrying the attributes the embedded code reads.
-/

namespace RFC

/-- Word-character test used by the name sanitizer: Python's regex class
backslash-w restricted to ASCII (letters, digits, underscore). -/
def isWordChar (c : Char) : Bool := c.isAlphanum || c = '_'

/-- Embedding of utils.sanitize_name: every character outside word chars and
hyphen is replaced by an underscore, a leading digit gets an underscore
prepended, and an empty result becomes "unnamed". -/
def sanitizeName (name : String) : String :=
  let s1 : String := ⟨name.data.map (fun c => if isWordChar c || c = '-' then c else '_')⟩
  let s2 : String :=
    match s1.data with
    | [] => s1
    | c :: _ => if c.isDigit then "_" ++ s1 else s1
  if s2 = "" then "unnamed" else s2

/-- Embedding of Python's "\n".join over a list of strings. -/
def joinNL : List String → String
  | [] => ""
  | [s] => s
  | s :: rest => s ++ "\n" ++ joinNL rest

/-- Boolean test that the first character list starts the second. -/
def listPref : List Char → List Char → Bool
  | [], _ => true
  | _ :: _, [] => false
  | a :: as, b :: bs => a == b && listPref as bs

/-- Boolean test that the first character list occurs contiguously inside the
second (substring containment at the character level). -/
def listSub (sub : List Char) : List Char → Bool
  | [] => listPref sub []
  | b :: t => listPref sub (b :: t) || listSub sub t

/-- One string occurs as a substring of another, via their character lists. -/
def mentions (needle hay : String) : Bool := listSub needle.data hay.data

theorem listPref_self_append (s t : List Char) : listPref s (s ++ t) = true := by
  induction s with
  | nil => rfl
  | cons a as ih => simp [listPref, ih]

theorem listSub_self_append (sub post : List Char) :
    listSub sub (sub ++ post) = true := by
  cases h : sub ++ post with
  | nil =>
    have hs : sub = [] := by
      cases sub with
      | nil => rfl
      | cons a as => simp at h
    subst hs; rfl
  | cons b t =>
    show (listPref sub (b :: t) || listSub sub t) = true
    rw [← h, listPref_self_append]
    simp

theorem listSub_append (sub pre post : List Char) :
    listSub sub (pre ++ (sub ++ post)) = true := by
  induction pre with
  | nil => simpa using listSub_self_append sub post
  | cons a as ih =>
    cases sub with
    | nil => simp [listSub, listPref]
    | cons s ss =>
      have : listSub (s :: ss) (a :: (as ++ ((s :: ss) ++ post))) =
          (listPref (s :: ss) (a :: (as ++ ((s :: ss) ++ post))) ||
           listSub (s :: ss) (as ++ ((s :: ss) ++ post))) := rfl
      rw [List.cons_append, this, ih]
      simp

/-! Section: The IR data model (schema.py) -/

/-- Embedding of schema.JointType. -/
inductive JointType where
  | revolute | prismatic | continuous | fixed | floating | planar | spherical | universal
deriving DecidableEq

/-- Embedding of schema.GeometryType. -/
inductive GeometryType where
  | box | cylinder | sphere | mesh | plane | capsule | ellipsoid
deriving DecidableEq

/-- Embedding of schema.Vector3 (floats as reals). -/
structure V3 where
  x : ℝ := 0
  y : ℝ := 0
  z : ℝ := 0

/-- Embedding of schema.Quaternion, scalar-last (x, y, z, w). -/
structure Quat where
  x : ℝ := 0
  y : ℝ := 0
  z : ℝ := 0
  w : ℝ := 1

/-- Embedding of schema.Geometry: the tagged union with the parameter slots
the claims need (box size, cylinder radius/length, mesh filename). -/
structure Geometry where
  type : GeometryType
  size : Option V3 := none
  radius : Option ℝ := none
  length : Option ℝ := none
  filename : Option String := none

/-- Embedding of schema.Link, restricted to the fields the claims read
(name and mass; visuals/collisions/inertia are never inspected by the
functions under study). -/
structure Link where
  name : String
  mass : ℝ := 0

/-- Embedding of schema.Joint, restricted to the fields the claims read. -/
structure Joint where
  name : String
  type : JointType
  parent_link : String
  child_link : String
  axis : V3 := { x := 0, y := 0, z := 1 }

/-- Embedding of schema.Actuator (name and joint reference). -/
structure Actuator where
  name : String
  joint : String

/-- Embedding of schema.Sensor (name and parent link reference). -/
structure Sensor where
  name : String
  parent_link : String

/-- Embedding of schema.CommonSchema (links, joints, actuators, sensors). -/
structure Schema where
  links : List Link := []
  joints : List Joint := []
  actuators : List Actuator := []
  sensors : List Sensor := []

/-- Embedding of CommonSchema.get_link: first link with the given name. -/
def Schema.get_link (s : Schema) (name : String) : Option Link :=
  s.links.find? (fun l => l.name == name)

/-- Embedding of CommonSchema.get_joint: first joint with the given name. -/
def Schema.get_joint (s : Schema) (name : String) : Option Joint :=
  s.joints.find? (fun j => j.name == name)

/-- Embedding of CommonSchema.get_root_links: links whose name is not the
child_link of any joint. -/
def Schema.get_root_links (s : Schema) : List Link :=
  let child_links := s.joints.map (fun j => j.child_link)
  s.links.filter (fun l => !(child_links.contains l.name))

/-- Embedding of the joint-reference check inside CommonSchema.validate
(the loop body over joints): an unknown-parent issue then an unknown-child
issue, each exactly when get_link finds no declared link of that name.
Note the literal "world" gets no special treatment here. -/
def jointRefIssues (s : Schema) (j : Joint) : List String :=
  (if (s.get_link j.parent_link).isNone then
    ["Joint '" ++ j.name ++ "' references unknown parent link: " ++ j.parent_link]
  else []) ++
  (if (s.get_link j.child_link).isNone then
    ["Joint '" ++ j.name ++ "' references unknown child link: " ++ j.child_link]
  else [])

/-- Embedding of CommonSchema.validate: duplicate-name checks, joint/actuator/
sensor reference checks, and the empty-roots check, in source order. -/
def Schema.validate (s : Schema) : List String :=
  (if (s.links.map Link.name).Nodup then [] else ["Duplicate link names found"]) ++
  (if (s.joints.map Joint.name).Nodup then [] else ["Duplicate joint names found"]) ++
  (s.joints.map (jointRefIssues s)).flatten ++
  (s.actuators.map (fun a =>
    if (s.get_joint a.joint).isNone then
      ["Actuator '" ++ a.name ++ "' references unknown joint: " ++ a.joint]
    else [])).flatten ++
  (s.sensors.map (fun se =>
    if (s.get_link se.parent_link).isNone then
      ["Sensor '" ++ se.name ++ "' references unknown parent link: " ++ se.parent_link]
    else [])).flatten ++
  (if s.get_root_links.length = 0 then
    ["No root links found - possible kinematic loop"]
  else [])

/-- Embedding of utils.validate_schema's exception message: the header line
followed by one "  - issue" line per issue. -/
def validationErrorMsg (issues : List String) : String :=
  "Schema validation failed:\n" ++ joinNL (issues.map (fun issue => "  - " ++ issue))

/-- Embedding of the post-parse steps of ConversionEngine.convert: with
validation enabled, a non-empty issue list raises (the error carries the
message utils.validate_schema builds) before the exporter runs; the ok value
stands for the exported schema, so an error value means the output file was
never written. -/
def convertPipeline (schema : Schema) (validation : Bool) : Except String Schema :=
  if validation then
    match schema.validate with
    | [] => Except.ok schema
    | issues => Except.error (validationErrorMsg issues)
  else Except.ok schema

/-! Section: Joint-axis normalization (URDFParser._parse_joint / MJCFParser._parse_mjcf_joint) -/

/-- Squared Euclidean norm of a Vector3; the stored axis is unit length
exactly when this equals one. -/
def sqNorm (v : V3) : ℝ := v.x ^ 2 + v.y ^ 2 + v.z ^ 2

/-- Embedding of the axis-normalization block of URDFParser._parse_joint
(parsers.py): the axis vector is divided by its magnitude when that exceeds
1e-6, otherwise the default axis (0,0,1) is kept and one warning is recorded
through ParseContext.add_warning with the joint name as element context. -/
noncomputable def urdfJointAxis (name : String) (ax ay az : ℝ) : V3 × List String :=
  let magnitude := Real.sqrt (ax ^ 2 + ay ^ 2 + az ^ 2)
  if magnitude > 1e-6 then
    ({ x := ax / magnitude, y := ay / magnitude, z := az / magnitude }, [])
  else
    ({ x := 0, y := 0, z := 1 }, [name ++ ": Zero-magnitude joint axis"])

/-- Embedding of the axis-normalization block of MJCFParser._parse_mjcf_joint
(parsers.py): identical arithmetic, with the warning text carrying the joint
name inline and no element prepended. -/
noncomputable def mjcfJointAxis (joint_name : String) (ax ay az : ℝ) : V3 × List String :=
  let magnitude := Real.sqrt (ax ^ 2 + ay ^ 2 + az ^ 2)
  if magnitude > 1e-6 then
    ({ x := ax / magnitude, y := ay / magnitude, z := az / magnitude }, [])
  else
    ({ x := 0, y := 0, z := 1 }, ["Zero-magnitude joint axis for " ++ joint_name])

/-! Section: MJCF geometry sizes (MJCFExporter._add_geom / MJCFParser._parse_mjcf_geometry) -/

/-- Embedding of the BOX branch of MJCFExporter._add_geom with a size present:
the emitted size attribute holds the half-extents. -/
noncomputable def mjcfBoxHalfExtents (size : V3) : List ℝ := [size.x / 2, size.y / 2, size.z / 2]

/-- Embedding of the size-driven dispatch of MJCFParser._parse_mjcf_geometry:
sphere needs one value, box needs three (half-extents doubled on import),
cylinder and capsule need two (half-length doubled, capsule approximated by a
cylinder); any other combination yields no geometry.  The mesh branch needs
the asset map and is outside this fragment. -/
noncomputable def parseMjcfGeometry (geom_type : String) (size_values : List ℝ) : Option Geometry :=
  match geom_type, size_values with
  | "sphere", r :: _ => some { type := .sphere, radius := some r }
  | "box", sx :: sy :: sz :: _ =>
    some { type := .box, size := some { x := sx * 2, y := sy * 2, z := sz * 2 } }
  | "cylinder", r :: l :: _ =>
    some { type := .cylinder, radius := some r, length := some (l * 2) }
  | "capsule", r :: l :: _ =>
    some { type := .cylinder, radius := some r, length := some (l * 2) }
  | _, _ => none

/-- The IR geometry produced for a box of full-extent size s. -/
def boxGeometry (s : V3) : Geometry := { type := .box, size := some s }

/-! Section: MJCF quaternion reordering (MJCFParser._parse_body_hierarchy / MJCFExporter._add_body_with_joint) -/

/-- Embedding of the quat-attribute ingestion of MJCFParser._parse_body_hierarchy:
a list of exactly four values in MuJoCo's scalar-first order (w,x,y,z) becomes
the IR's scalar-last Quaternion(x,y,z,w); any other length is rejected. -/
def mjcfQuatToIR (quat_values : List ℝ) : Option Quat :=
  match quat_values with
  | [v0, v1, v2, v3] => some { x := v1, y := v2, z := v3, w := v0 }
  | _ => none

/-- Embedding of the quat attribute emitted by MJCFExporter._add_body_with_joint:
the IR quaternion written back in MuJoCo's scalar-first order (w,x,y,z). -/
def mjcfQuatAttr (q : Quat) : List ℝ := [q.w, q.x, q.y, q.z]

/-! Section: URDF document fragment and URDFParser

The modelled document carries the attributes the reference-resolution and
kinematic-tree code reads: link elements contribute their name attribute,
joint elements their name, type and parent/child link attributes.  Inertial,
visual, origin, axis, limit and dynamics sub-elements are outside this
fragment (they produce only float-format diagnostics, handled separately by
the axis functions above). -/

/-- A link element of a URDF document (its name attribute). -/
structure UrdfLinkEl where
  name : Option String

/-- A joint element of a URDF document: name and type attributes, plus the
link attribute of its parent and child sub-elements (none when the
sub-element itself is missing). -/
structure UrdfJointEl where
  name : Option String
  type : Option String
  parent : Option String
  child : Option String

/-- A URDF document: robot name attribute, link elements, joint elements. -/
structure UrdfDoc where
  name : Option String := none
  links : List UrdfLinkEl := []
  joints : List UrdfJointEl := []

/-- Embedding of URDFParser._parse_joint's type_mapping dictionary. -/
def urdfTypeMap : String → Option JointType
  | "revolute" => some .revolute
  | "continuous" => some .continuous
  | "prismatic" => some .prismatic
  | "fixed" => some .fixed
  | "floating" => some .floating
  | "planar" => some .planar
  | _ => none

/-- Embedding of URDFParser._parse_link restricted to the fragment: a missing
name attribute records an error and drops the element, otherwise a link with
the sanitized name is produced. -/
def parseUrdfLink (e : UrdfLinkEl) : Option Link × List String :=
  match e.name with
  | none => (none, ["Link name is required"])
  | some n => (some { name := sanitizeName n }, [])

/-- Embedding of the link loop of URDFParser.parse: links and errors
accumulated in document order. -/
def parseUrdfLinks (els : List UrdfLinkEl) : List Link × List String :=
  ((els.map parseUrdfLink).filterMap Prod.fst,
   (els.map (fun e => (parseUrdfLink e).2)).flatten)

/-- Embedding of URDFParser._parse_joint restricted to the fragment: missing
name/type, unmapped type or missing parent/child sub-element record an error
and drop the joint; otherwise the joint is produced, with a parent-not-found
error unless the sanitized parent is a parsed link name or the literal
"world", and a child-not-found error unless the sanitized child is a parsed
link name.  Error messages carry the raw joint name as element context, as
ParseContext.add_error prepends it. -/
def parseUrdfJoint (link_names : List String) (e : UrdfJointEl) :
    Option Joint × List String :=
  match e.name with
  | none => (none, ["Joint name is required"])
  | some n =>
    match e.type with
    | none => (none, [n ++ ": Joint type is required"])
    | some t =>
      match urdfTypeMap t with
      | none => (none, [n ++ ": Unsupported joint type: " ++ t])
      | some ty =>
        match e.parent, e.child with
        | none, _ => (none, [n ++ ": Joint must have parent and child links"])
        | some _, none => (none, [n ++ ": Joint must have parent and child links"])
        | some p, some c =>
          let parent_link := sanitizeName p
          let child_link := sanitizeName c
          let errs :=
            (if ¬ (link_names.contains parent_link) ∧ parent_link ≠ "world" then
              [n ++ ": Parent link '" ++ parent_link ++ "' not found"]
            else []) ++
            (if ¬ (link_names.contains child_link) then
              [n ++ ": Child link '" ++ child_link ++ "' not found"]
            else [])
          (some { name := sanitizeName n, type := ty,
                  parent_link := parent_link, child_link := child_link }, errs)

/-- Embedding of the joint loop of URDFParser.parse. -/
def parseUrdfJoints (link_names : List String) (els : List UrdfJointEl) :
    List Joint × List String :=
  ((els.map (parseUrdfJoint link_names)).filterMap Prod.fst,
   (els.map (fun e => (parseUrdfJoint link_names e).2)).flatten)

/-! Section: Kinematic-tree validation (URDFParser._validate_kinematic_tree) -/

/-- Embedding of the dict comprehension building parent_child_map: the child
to parent association with later joints overwriting earlier ones. -/
def dictLookup (pm : List (String × String)) (k : String) : Option String :=
  pm.foldl (fun acc p => if p.1 = k then some p.2 else acc) none

/-- The finite set of parent names occurring in the map; every target of a
recursive step of the cycle search lies in it. -/
def parentsF (pm : List (String × String)) : Finset String :=
  (pm.map Prod.snd).toFinset

/-- Number of parent names not yet visited; the fuel measure of the search. -/
def mNotVis (pm : List (String × String)) (visited : List String) : ℕ :=
  ((parentsF pm).filter (fun p => p ∉ visited)).card

/-- Embedding of the recursive has_cycle of _validate_kinematic_tree.  The
Python recursion always terminates because every recursive step targets an
unvisited parent name; the fuel argument makes that measure explicit, and the
callers below always pass fuel exceeding the number of map entries plus one,
so the fuel-exhausted branch is unreachable.  The function returns the cycle
flag together with the visited set (mutated in place in the source); the
recursion stack is only extended along the current path, matching the
source's add/remove discipline. -/
def hasCycleDfs (pm : List (String × String)) :
    ℕ → String → List String → List String → Bool × List String
  | 0, _, visited, _ => (false, visited)
  | fuel + 1, node, visited, stack =>
    let visited1 := node :: visited
    let stack1 := node :: stack
    match dictLookup pm node with
    | none => (false, visited1)
    | some neighbor =>
      if neighbor = "world" then (false, visited1)
      else if neighbor ∈ visited1 then
        (if neighbor ∈ stack1 then (true, visited1) else (false, visited1))
      else hasCycleDfs pm fuel neighbor visited1 stack1

/-- Embedding of the loop over link_names in _validate_kinematic_tree: each
not-yet-visited name starts a fresh search with an empty recursion stack, and
the first detected cycle stops the loop.  Iterating the name list directly is
equivalent to iterating the Python set: a name already processed is in the
visited set and is skipped, and for this functional graph the cycle flag does
not depend on the iteration order. -/
def cycleScan (pm : List (String × String)) (fuel : ℕ) :
    List String → List String → Bool
  | [], _ => false
  | n :: rest, visited =>
    if n ∈ visited then cycleScan pm fuel rest visited
    else
      let r := hasCycleDfs pm fuel n visited []
      if r.1 then true else cycleScan pm fuel rest r.2

/-- Embedding of the error half of URDFParser._validate_kinematic_tree: the
child-to-parent map is built from the parsed joints and a detected cycle
records one circular-dependency error.  (The orphan check only records
warnings.) -/
def urdfKinTreeErrors (links : List Link) (joints : List Joint) : List String :=
  let pm := joints.map (fun j => (j.child_link, j.parent_link))
  let link_names := links.map Link.name
  if cycleScan pm (pm.length + 2) link_names [] then
    ["Circular dependency detected in kinematic tree"]
  else []

/-- Embedding of URDFParser.parse restricted to the fragment: the robot-name
check, the link loop, the joint loop (validating references against the
parsed link names) and the kinematic-tree validation, with the error list
accumulated in that order and attached to the produced schema's parse
context.  The function is total: element-level problems never abort the
parse. -/
def parseUrdf (doc : UrdfDoc) : Schema × List String :=
  let robot_name := doc.name.getD "robot"
  let nameErrs : List String := if robot_name = "" then ["Robot name is required"] else []
  let lres := parseUrdfLinks doc.links
  let link_names := lres.1.map Link.name
  let jres := parseUrdfJoints link_names doc.joints
  let treeErrs := urdfKinTreeErrors lres.1 jres.1
  ({ links := lres.1, joints := jres.1 },
   nameErrs ++ lres.2 ++ jres.2 ++ treeErrs)

/-! Section: MJCF document fragment and MJCFParser

The modelled body tree carries the attributes _parse_body_hierarchy reads for
link and joint construction: the body name attribute, the optional joint
child element (name and type attributes) and the nested child bodies.
Position/quaternion attributes, inertial and geom children only decorate the
produced link and are embedded separately above. -/

/-- A joint element inside an MJCF body (name and type attributes). -/
structure MjJointEl where
  name : Option String := none
  type : Option String := none

/-- An MJCF body element: name attribute, optional joint child, nested
bodies. -/
inductive MjBody where
  | mk (name : Option String) (joint : Option MjJointEl) (children : List MjBody)

/-- An MJCF document: model name and the worldbody's top-level bodies (none
when the worldbody element is missing). -/
structure MjcfDoc where
  model : Option String := none
  worldbody : Option (List MjBody) := none

/-- Embedding of _parse_mjcf_joint's type_mapping with its REVOLUTE default. -/
def mjcfTypeMap : String → JointType
  | "hinge" => .revolute
  | "slide" => .prismatic
  | "ball" => .spherical
  | "free" => .floating
  | _ => .revolute

/-- Embedding of MJCFParser._parse_mjcf_joint restricted to the fragment: the
joint name defaults to child_joint when absent, the type attribute defaults
to hinge, and the joint always links the given parent and child. -/
def parseMjcfJointEl (je : MjJointEl) (parent_link child_link : String) : Joint :=
  { name := sanitizeName (je.name.getD (child_link ++ "_joint")),
    type := mjcfTypeMap (je.type.getD "hinge"),
    parent_link := parent_link, child_link := child_link }

mutual

/-- Embedding of MJCFParser._parse_body_hierarchy: a nameless body records an
error and contributes nothing; otherwise a link named after the sanitized
body name is produced, then — only when the parent is not the literal
"world" — either the explicit joint element is parsed or a fixed joint named
body_fixed is synthesized, and finally the child bodies are parsed
recursively with this body as parent.  Returns (links, joints, errors) in
accumulation order. -/
def parseBodyHierarchy : MjBody → String → List Link × List Joint × List String
  | .mk none _ _, _ => ([], [], ["Body missing name attribute"])
  | .mk (some nm) jointEl children, parent_link =>
    let body_name := sanitizeName nm
    let link : Link := { name := body_name }
    let selfJoints : List Joint :=
      if parent_link ≠ "world" then
        match jointEl with
        | some je => [parseMjcfJointEl je parent_link body_name]
        | none => [{ name := body_name ++ "_fixed", type := .fixed,
                     parent_link := parent_link, child_link := body_name }]
      else []
    let rs := parseBodyList children body_name
    (link :: rs.1, selfJoints ++ rs.2.1, rs.2.2)

/-- The recursive loop over a body's children, concatenating the per-child
results in order (the source extends its lists per child). -/
def parseBodyList : List MjBody → String → List Link × List Joint × List String
  | [], _ => ([], [], [])
  | b :: bs, parent_link =>
    let r1 := parseBodyHierarchy b parent_link
    let r2 := parseBodyList bs parent_link
    (r1.1 ++ r2.1, r1.2.1 ++ r2.2.1, r1.2.2 ++ r2.2.2)

end

/-- The world link MJCFParser.parse inserts before any parsed body. -/
def worldLink : Link := { name := "world" }

/-- Embedding of MJCFParser.parse restricted to the fragment: a missing
worldbody records an error and returns an empty schema; otherwise the links
list starts with the inserted world link, followed by the bodies parsed from
the worldbody with parent "world". -/
def parseMjcf (doc : MjcfDoc) : Schema × List String :=
  match doc.worldbody with
  | none => ({ links := [], joints := [] }, ["MJCF file missing worldbody element"])
  | some bodies =>
    let r := parseBodyList bodies "world"
    ({ links := worldLink :: r.1, joints := r.2.1 }, r.2.2)

/-- Occurrence of a body inside a body tree together with the parent-link
name the traversal of _parse_body_hierarchy hands it: the root occurs with
the traversal's starting parent, and a child of a named occurring body occurs
with that body's sanitized name. -/
inductive OccIn : MjBody → String → MjBody → String → Prop where
  | here (b : MjBody) (p : String) : OccIn b p b p
  | child {b : MjBody} {p : String} {nm : String} {jel : Option MjJointEl}
      {children : List MjBody} {pmid : String} {c : MjBody} :
      OccIn b p (.mk (some nm) jel children) pmid →
      c ∈ children →
      OccIn b p c (sanitizeName nm)

/-! Section: Kinematic graph notions for CommonSchema.get_root_links -/

/-- One edge of the child_link to parent_link edge set of the schema's
joints. -/
def stepUp (s : Schema) (a b : String) : Prop :=
  ∃ j ∈ s.joints, j.child_link = a ∧ j.parent_link = b

/-- The same edge read downward, from a parent to one of its children. -/
def stepDn (s : Schema) (p c : String) : Prop := stepUp s c p

/-- The joints form a tree in the sense of the specification: the
child_link to parent_link edge set has no cycles. -/
def AcyclicJoints (s : Schema) : Prop :=
  ∀ a, ¬ Relation.TransGen (stepUp s) a a

theorem reflTransGen_up_down (s : Schema) {a b : String}
    (h : Relation.ReflTransGen (stepUp s) a b) :
    Relation.ReflTransGen (stepDn s) b a := by
  induction h with
  | refl => exact .refl
  | tail _ hbc ih => exact Relation.ReflTransGen.head hbc ih

/-- In a schema with an acyclic joint edge set whose parent references all
resolve to declared links, every link name reaches, along child-to-parent
edges, a name that is no joint's child (a root name). -/
theorem chase_to_root (s : Schema)
    (hac : AcyclicJoints s)
    (hpar : ∀ j ∈ s.joints, j.parent_link ∈ s.links.map Link.name) :
    ∀ a ∈ s.links.map Link.name,
      ∃ rt, rt ∈ s.links.map Link.name ∧
        (∀ j ∈ s.joints, j.child_link ≠ rt) ∧
        Relation.ReflTransGen (stepUp s) a rt := by
  classical
  set ns := (s.links.map Link.name).toFinset with hns
  let T := { x : String // x ∈ ns }
  let r : T → T → Prop := fun u v => Relation.TransGen (stepUp s) v.1 u.1
  haveI : IsTrans T r := ⟨fun _ _ _ hab hbc => Relation.TransGen.trans hbc hab⟩
  haveI : IsIrrefl T r := ⟨fun u hu => hac u.1 hu⟩
  have wf : WellFounded r := Finite.wellFounded_of_trans_of_irrefl r
  intro a ha
  have haT : a ∈ ns := by simpa [hns] using ha
  have main : ∀ x : T, ∃ rt, rt ∈ s.links.map Link.name ∧
      (∀ j ∈ s.joints, j.child_link ≠ rt) ∧
      Relation.ReflTransGen (stepUp s) x.1 rt := by
    intro x
    induction x using WellFounded.induction wf with
    | _ x ih =>
      by_cases hc : ∃ j ∈ s.joints, j.child_link = x.1
      · obtain ⟨j, hj, hcl⟩ := hc
        have hb : j.parent_link ∈ s.links.map Link.name := hpar j hj
        have hbT : j.parent_link ∈ ns := by simpa [hns] using hb
        have hstep : stepUp s x.1 j.parent_link := ⟨j, hj, hcl, rfl⟩
        obtain ⟨rt, h1, h2, h3⟩ := ih ⟨j.parent_link, hbT⟩ (Relation.TransGen.single hstep)
        exact ⟨rt, h1, h2, Relation.ReflTransGen.head hstep h3⟩
      · push_neg at hc
        exact ⟨x.1, List.mem_toFinset.mp x.2, hc, Relation.ReflTransGen.refl⟩
  exact main ⟨a, haT⟩

/-- A schema whose only link hangs below the undeclared root sentinel
"world": the joint edge set is the single acyclic edge base to world, yet
get_root_links is empty because base is a joint's child. -/
def cx3 : Schema :=
  { links := [{ name := "base" }],
    joints := [{ name := "anchor", type := .fixed,
                 parent_link := "world", child_link := "base" }] }

/-- A two-link schema with one joint, the shape the claim describes. -/
def wit3 : Schema :=
  { links := [{ name := "arm_base" }, { name := "arm_tip" }],
    joints := [{ name := "elbow", type := .revolute,
                 parent_link := "arm_base", child_link := "arm_tip" }] }

/-- A schema whose joint list is one joint with distinct endpoints has an
acyclic joint edge set. -/
theorem acyclic_of_single_joint (s : Schema) (j : Joint)
    (hjs : s.joints = [j]) (hne : j.child_link ≠ j.parent_link) :
    AcyclicJoints s := by
  have hstep : ∀ x y, stepUp s x y → x = j.child_link ∧ y = j.parent_link := by
    intro x y hxy
    obtain ⟨j1, hj1, h1, h2⟩ := hxy
    rw [hjs] at hj1
    simp only [List.mem_singleton] at hj1
    subst hj1
    exact ⟨h1.symm, h2.symm⟩
  intro a h
  have hend : ∀ x y, Relation.TransGen (stepUp s) x y → y = j.parent_link := by
    intro x y hxy
    induction hxy with
    | single h1 => exact (hstep _ _ h1).2
    | tail _ h1 _ => exact (hstep _ _ h1).2
  have ha : a = j.parent_link := hend _ _ h
  obtain ⟨b, hb, _⟩ := (Relation.TransGen.head'_iff).mp h
  have hxa := (hstep _ _ hb).1
  exact hne (hxa.symm.trans ha)

/-! Section: Soundness of the cycle search

A nonempty set of names closed under the child-to-parent map models a cycle:
following the map from any member stays in the set forever, which in a finite
functional graph forces a revisit.  The lemmas below show the embedded search
reports true on any such set reachable from the scanned link names. -/

theorem dictLookup_mem_parents {pm : List (String × String)} {k v : String}
    (h : dictLookup pm k = some v) : v ∈ parentsF pm := by
  have aux : ∀ (l : List (String × String)) (acc : Option String),
      l.foldl (fun acc p => if p.1 = k then some p.2 else acc) acc = acc ∨
      ∃ p ∈ l, l.foldl (fun acc p => if p.1 = k then some p.2 else acc) acc = some p.2 := by
    intro l
    induction l with
    | nil => intro acc; exact Or.inl rfl
    | cons q t ih =>
      intro acc
      rcases ih (if q.1 = k then some q.2 else acc) with h1 | h1
      · by_cases hq : q.1 = k
        · right
          refine ⟨q, List.mem_cons_self _ _, ?_⟩
          rw [List.foldl_cons]
          rw [if_pos hq] at h1 ⊢
          exact h1
        · left
          rw [List.foldl_cons]
          rw [if_neg hq] at h1 ⊢
          exact h1
      · obtain ⟨p, hp, hfold⟩ := h1
        right
        exact ⟨p, List.mem_cons_of_mem _ hp, by rw [List.foldl_cons]; exact hfold⟩
  rcases aux pm none with h1 | h1
  · rw [dictLookup, h1] at h; exact absurd h (by simp)
  · obtain ⟨p, hp, hfold⟩ := h1
    rw [dictLookup, hfold] at h
    have : p.2 = v := by injection h
    subst this
    exact List.mem_toFinset.mpr (List.mem_map_of_mem Prod.snd hp)

theorem mNotVis_le (pm : List (String × String)) (visited : List String) :
    mNotVis pm visited ≤ pm.length := by
  unfold mNotVis parentsF
  have h1 := Finset.card_filter_le (pm.map Prod.snd).toFinset (fun p => p ∉ visited)
  have h2 : (pm.map Prod.snd).toFinset.card ≤ (pm.map Prod.snd).length :=
    List.toFinset_card_le (pm.map Prod.snd)
  have h3 : (pm.map Prod.snd).length = pm.length := by simp
  omega

theorem mNotVis_mono (pm : List (String × String)) (n : String) (visited : List String) :
    mNotVis pm (n :: visited) ≤ mNotVis pm visited := by
  apply Finset.card_le_card
  intro x hx
  rw [Finset.mem_filter] at hx ⊢
  exact ⟨hx.1, fun hmem => hx.2 (List.mem_cons_of_mem _ hmem)⟩

theorem mNotVis_lt (pm : List (String × String)) (n : String) (visited : List String)
    (hp : n ∈ parentsF pm) (hnv : n ∉ visited) :
    mNotVis pm (n :: visited) < mNotVis pm visited := by
  apply Finset.card_lt_card
  rw [Finset.ssubset_iff_of_subset]
  · exact ⟨n, Finset.mem_filter.mpr ⟨hp, hnv⟩, by simp [Finset.mem_filter]⟩
  · intro x hx
    rw [Finset.mem_filter] at hx ⊢
    exact ⟨hx.1, fun hmem => hx.2 (List.mem_cons_of_mem _ hmem)⟩

/-- Fuel adequacy invariant for the embedded search: either two units of
slack over the unvisited-parents measure, or the node is itself a parent name
(the shape of every recursive call) with one unit of slack. -/
def fuelOK (pm : List (String × String)) (fuel : ℕ) (node : String)
    (visited : List String) : Prop :=
  2 + mNotVis pm visited ≤ fuel ∨
  (node ∈ parentsF pm ∧ 1 + mNotVis pm visited ≤ fuel)

theorem fuelOK_next {pm : List (String × String)} {fuel : ℕ} {node p : String}
    {visited : List String} (hf : fuelOK pm (fuel + 1) node visited)
    (hp : p ∈ parentsF pm) (hnv : node ∉ visited) :
    fuelOK pm fuel p (node :: visited) := by
  rcases hf with hf | ⟨hnp, hf⟩
  · have := mNotVis_mono pm node visited
    exact Or.inr ⟨hp, by omega⟩
  · have := mNotVis_lt pm node visited hnp hnv
    exact Or.inr ⟨hp, by omega⟩

theorem dfs_true_of_closed (pm : List (String × String)) (C : Finset String)
    (hcl : ∀ c ∈ C, ∃ p ∈ C, dictLookup pm c = some p)
    (hw : "world" ∉ C) :
    ∀ (fuel : ℕ) (node : String) (visited stack : List String),
      node ∈ C → node ∉ visited →
      (∀ c ∈ C, c ∈ visited → c ∈ stack) →
      fuelOK pm fuel node visited →
      (hasCycleDfs pm fuel node visited stack).1 = true := by
  intro fuel
  induction fuel with
  | zero =>
    intro node visited stack _ _ _ hf
    rcases hf with hf | ⟨_, hf⟩ <;> omega
  | succ fuel ih =>
    intro node visited stack hnC hnv hinv hf
    obtain ⟨p, hpC, hlk⟩ := hcl node hnC
    have hpw : p ≠ "world" := fun h => hw (h ▸ hpC)
    simp only [hasCycleDfs, hlk]
    rw [if_neg hpw]
    by_cases hpv : p ∈ node :: visited
    · rw [if_pos hpv]
      have hps : p ∈ node :: stack := by
        rcases List.mem_cons.mp hpv with h | h
        · exact h ▸ List.mem_cons_self _ _
        · exact List.mem_cons_of_mem _ (hinv p hpC h)
      rw [if_pos hps]
    · rw [if_neg hpv]
      apply ih p (node :: visited) (node :: stack) hpC hpv
      · intro c hc hcv
        rcases List.mem_cons.mp hcv with h | h
        · exact h ▸ List.mem_cons_self _ _
        · exact List.mem_cons_of_mem _ (hinv c hc h)
      · exact fuelOK_next hf (dictLookup_mem_parents hlk) hnv

theorem dfs_false_avoids_closed (pm : List (String × String)) (C : Finset String)
    (hcl : ∀ c ∈ C, ∃ p ∈ C, dictLookup pm c = some p)
    (hw : "world" ∉ C) :
    ∀ (fuel : ℕ) (node : String) (visited stack : List String),
      node ∉ visited → (∀ c ∈ C, c ∉ visited) →
      fuelOK pm fuel node visited →
      (hasCycleDfs pm fuel node visited stack).1 = true ∨
      (∀ c ∈ C, c ∉ (hasCycleDfs pm fuel node visited stack).2) := by
  intro fuel
  induction fuel with
  | zero =>
    intro node visited stack _ hCv _
    exact Or.inr (by simpa [hasCycleDfs] using hCv)
  | succ fuel ih =>
    intro node visited stack hnv hCv hf
    by_cases hnC : node ∈ C
    · left
      exact dfs_true_of_closed pm C hcl hw (fuel + 1) node visited stack hnC hnv
        (fun c hc hcmem => absurd hcmem (hCv c hc)) hf
    · have hCv1 : ∀ c ∈ C, c ∉ node :: visited := by
        intro c hc
        rw [List.mem_cons]
        push_neg
        exact ⟨fun h => hnC (h ▸ hc), hCv c hc⟩
      cases hlk : dictLookup pm node with
      | none =>
        right
        simp only [hasCycleDfs, hlk]
        exact hCv1
      | some p =>
        by_cases hpw : p = "world"
        · right
          simp only [hasCycleDfs, hlk]
          rw [if_pos hpw]
          exact hCv1
        · by_cases hpv : p ∈ node :: visited
          · by_cases hps : p ∈ node :: stack
            · left
              simp only [hasCycleDfs, hlk]
              rw [if_neg hpw, if_pos hpv, if_pos hps]
            · right
              simp only [hasCycleDfs, hlk]
              rw [if_neg hpw, if_pos hpv, if_neg hps]
              exact hCv1
          · have hrec := ih p (node :: visited) (node :: stack) hpv hCv1
              (fuelOK_next hf (dictLookup_mem_parents hlk) hnv)
            simp only [hasCycleDfs, hlk]
            rw [if_neg hpw, if_neg hpv]
            exact hrec

theorem cycleScan_true (pm : List (String × String)) (C : Finset String)
    (hcl : ∀ c ∈ C, ∃ p ∈ C, dictLookup pm c = some p)
    (hw : "world" ∉ C) :
    ∀ (names visited : List String),
      (∃ c ∈ C, c ∈ names) → (∀ c ∈ C, c ∉ visited) →
      cycleScan pm (pm.length + 2) names visited = true := by
  intro names
  induction names with
  | nil =>
    rintro visited ⟨c, _, hmem⟩
    exact absurd hmem (List.not_mem_nil c)
  | cons n rest ih =>
    rintro visited ⟨c, hcC, hcm⟩ hCv
    have hfOK : ∀ v : List String, fuelOK pm (pm.length + 2) n v :=
      fun v => Or.inl (by have := mNotVis_le pm v; omega)
    by_cases hnv : n ∈ visited
    · have hcn : c ≠ n := fun h => (hCv c hcC) (h ▸ hnv)
      have hcr : c ∈ rest := by
        rcases List.mem_cons.mp hcm with h | h
        · exact absurd h hcn
        · exact h
      simpa [cycleScan, if_pos hnv] using ih visited ⟨c, hcC, hcr⟩ hCv
    · by_cases hnC : n ∈ C
      · have := dfs_true_of_closed pm C hcl hw (pm.length + 2) n visited [] hnC hnv
          (fun c hc hcmem => absurd hcmem (hCv c hc)) (hfOK visited)
        simp [cycleScan, if_neg hnv, this]
      · have hcn : c ≠ n := fun h => hnC (h ▸ hcC)
        have hcr : c ∈ rest := by
          rcases List.mem_cons.mp hcm with h | h
          · exact absurd h hcn
          · exact h
        by_cases hr : (hasCycleDfs pm (pm.length + 2) n visited []).1 = true
        · simp [cycleScan, if_neg hnv, hr]
        · rcases dfs_false_avoids_closed pm C hcl hw (pm.length + 2) n visited [] hnv hCv
            (hfOK visited) with htrue | havoid
          · exact absurd htrue hr
          · have hrfalse : (hasCycleDfs pm (pm.length + 2) n visited []).1 = false :=
              Bool.eq_false_iff.mpr hr
            simpa [cycleScan, if_neg hnv, hrfalse] using
              ih (hasCycleDfs pm (pm.length + 2) n visited []).2 ⟨c, hcC, hcr⟩ havoid

/-! Section: String containment and distinctness helpers -/

theorem mentions_of_data_shape (x h : String) (pre post : List Char)
    (heq : h.data = pre ++ (x.data ++ post)) : mentions x h = true := by
  unfold mentions
  rw [heq]
  exact listSub_append _ _ _

theorem joinNL_shape : ∀ (l : List String) (x : String), x ∈ l →
    ∃ pre post, (joinNL l).data = pre ++ (x.data ++ post) := by
  intro l
  induction l with
  | nil => intro x hx; exact absurd hx (List.not_mem_nil x)
  | cons y ys ih =>
    intro x hx
    rcases List.mem_cons.mp hx with hxy | hxys
    · subst hxy
      cases ys with
      | nil => exact ⟨[], [], by simp [joinNL]⟩
      | cons z zs =>
        refine ⟨[], ("\n" ++ joinNL (z :: zs)).data, ?_⟩
        show (x ++ "\n" ++ joinNL (z :: zs)).data = [] ++ (x.data ++ ("\n" ++ joinNL (z :: zs)).data)
        simp [List.append_assoc]
    · cases ys with
      | nil => exact absurd hxys (List.not_mem_nil x)
      | cons z zs =>
        obtain ⟨pre, post, hshape⟩ := ih x hxys
        refine ⟨(y ++ "\n").data ++ pre, post, ?_⟩
        show (y ++ "\n" ++ joinNL (z :: zs)).data = (y ++ "\n").data ++ pre ++ (x.data ++ post)
        rw [String.data_append, hshape]
        simp [List.append_assoc]

theorem mentions_validationErrorMsg (issues : List String) (issue : String)
    (h : issue ∈ issues) : mentions issue (validationErrorMsg issues) = true := by
  have hmem : ("  - " ++ issue) ∈ issues.map (fun i => "  - " ++ i) :=
    List.mem_map_of_mem _ h
  obtain ⟨pre, post, hshape⟩ := joinNL_shape _ _ hmem
  refine mentions_of_data_shape issue _
    ("Schema validation failed:\n".data ++ pre ++ "  - ".data) post ?_
  show ("Schema validation failed:\n" ++ joinNL (issues.map (fun i => "  - " ++ i))).data = _
  rw [String.data_append, hshape, String.data_append]
  simp [List.append_assoc]

theorem listPref_or_of_append_eq : ∀ (u v p c : List Char), u ++ p = v ++ c →
    (listPref u v || listPref v u) = true := by
  intro u
  induction u with
  | nil => intro v p c _; simp [listPref]
  | cons a as ih =>
    intro v p c h
    cases v with
    | nil => simp [listPref]
    | cons b bs =>
      rw [List.cons_append, List.cons_append] at h
      injection h with h1 h2
      have hrec := ih bs p c h2
      subst h1
      show ((a == a && listPref as bs) || (a == a && listPref bs as)) = true
      simpa using hrec

theorem parent_child_issue_ne (n p c : String) :
    ("Joint '" ++ n ++ "' references unknown parent link: " ++ p) ≠
    ("Joint '" ++ n ++ "' references unknown child link: " ++ c) := by
  intro h
  have hd := congrArg String.data h
  simp only [String.data_append, List.append_assoc] at hd
  have h1 := List.append_cancel_left hd
  have h2 := List.append_cancel_left h1
  have h3 := listPref_or_of_append_eq _ _ _ _ h2
  have h4 : (listPref "' references unknown parent link: ".data
      "' references unknown child link: ".data ||
      listPref "' references unknown child link: ".data
      "' references unknown parent link: ".data) = false := by decide
  rw [h4] at h3
  exact Bool.false_ne_true h3

/-! Section: Claim theorems -/

/-- C1: in both the URDF and the MJCF parser, a parsed joint axis of nonzero
magnitude is stored with unit length (squared norm one — the normalized
vector when the magnitude clears the 1e-6 threshold, the unit default
(0,0,1) otherwise), and a zero-magnitude input axis leaves the default axis
(0,0,1) and records exactly one warning in the parse context. -/
theorem c1_joint_axis_normalization (name : String) (ax ay az : ℝ) :
    (ax ^ 2 + ay ^ 2 + az ^ 2 ≠ 0 →
      sqNorm (urdfJointAxis name ax ay az).1 = 1 ∧
      sqNorm (mjcfJointAxis name ax ay az).1 = 1) ∧
    (ax ^ 2 + ay ^ 2 + az ^ 2 = 0 →
      urdfJointAxis name ax ay az =
        ({ x := 0, y := 0, z := 1 }, [name ++ ": Zero-magnitude joint axis"]) ∧
      mjcfJointAxis name ax ay az =
        ({ x := 0, y := 0, z := 1 }, ["Zero-magnitude joint axis for " ++ name])) := by
  have hs : (0:ℝ) ≤ ax ^ 2 + ay ^ 2 + az ^ 2 := by positivity
  constructor
  · intro hne
    have hnorm : sqNorm
        { x := ax / Real.sqrt (ax ^ 2 + ay ^ 2 + az ^ 2),
          y := ay / Real.sqrt (ax ^ 2 + ay ^ 2 + az ^ 2),
          z := az / Real.sqrt (ax ^ 2 + ay ^ 2 + az ^ 2) } = 1 := by
      show (ax / Real.sqrt (ax ^ 2 + ay ^ 2 + az ^ 2)) ^ 2 +
          (ay / Real.sqrt (ax ^ 2 + ay ^ 2 + az ^ 2)) ^ 2 +
          (az / Real.sqrt (ax ^ 2 + ay ^ 2 + az ^ 2)) ^ 2 = 1
      rw [div_pow, div_pow, div_pow, div_add_div_same, div_add_div_same,
        Real.sq_sqrt hs]
      exact div_self hne
    constructor
    · simp only [urdfJointAxis]
      by_cases hm : Real.sqrt (ax ^ 2 + ay ^ 2 + az ^ 2) > 1e-6
      · rw [if_pos hm]; exact hnorm
      · rw [if_neg hm]
        show (0:ℝ) ^ 2 + 0 ^ 2 + 1 ^ 2 = 1
        norm_num
    · simp only [mjcfJointAxis]
      by_cases hm : Real.sqrt (ax ^ 2 + ay ^ 2 + az ^ 2) > 1e-6
      · rw [if_pos hm]; exact hnorm
      · rw [if_neg hm]
        show (0:ℝ) ^ 2 + 0 ^ 2 + 1 ^ 2 = 1
        norm_num
  · intro h0
    have hm : ¬ (Real.sqrt (ax ^ 2 + ay ^ 2 + az ^ 2) > 1e-6) := by
      rw [h0, Real.sqrt_zero]
      norm_num
    refine ⟨?_, ?_⟩
    · simp only [urdfJointAxis]
      rw [if_neg hm]
    · simp only [mjcfJointAxis]
      rw [if_neg hm]

/-- Witness for C1 at the concrete axes (0,0,2) and (0,0,0). -/
theorem c1_joint_axis_normalization_witness :
    ((0:ℝ) ^ 2 + 0 ^ 2 + 2 ^ 2 ≠ 0 ∧
      sqNorm (urdfJointAxis "elbow" 0 0 2).1 = 1 ∧
      sqNorm (mjcfJointAxis "elbow" 0 0 2).1 = 1) ∧
    ((0:ℝ) ^ 2 + 0 ^ 2 + 0 ^ 2 = 0 ∧
      urdfJointAxis "elbow" 0 0 0 =
        ({ x := 0, y := 0, z := 1 }, ["elbow" ++ ": Zero-magnitude joint axis"]) ∧
      mjcfJointAxis "elbow" 0 0 0 =
        ({ x := 0, y := 0, z := 1 }, ["Zero-magnitude joint axis for " ++ "elbow"])) := by
  have h1 : (0:ℝ) ^ 2 + 0 ^ 2 + 2 ^ 2 ≠ 0 := by norm_num
  have h2 : (0:ℝ) ^ 2 + 0 ^ 2 + 0 ^ 2 = 0 := by norm_num
  obtain ⟨ha, hb⟩ := (c1_joint_axis_normalization "elbow" 0 0 2).1 h1
  obtain ⟨hc, hd⟩ := (c1_joint_axis_normalization "elbow" 0 0 0).2 h2
  exact ⟨⟨h1, ha, hb⟩, ⟨h2, hc, hd⟩⟩

/-- C2: exporting a full-extent box size as MJCF half-extents and re-parsing
the result through the MJCF geometry parser reproduces the original size; in
particular (0.4, 0.3, 0.2) round-trips. -/
theorem c2_box_size_roundtrip :
    (∀ s : V3, parseMjcfGeometry "box" (mjcfBoxHalfExtents s) = some (boxGeometry s)) ∧
    mjcfBoxHalfExtents { x := 0.4, y := 0.3, z := 0.2 } = [0.2, 0.15, 0.1] ∧
    parseMjcfGeometry "box" (mjcfBoxHalfExtents { x := 0.4, y := 0.3, z := 0.2 }) =
      some (boxGeometry { x := 0.4, y := 0.3, z := 0.2 }) := by
  have hmain : ∀ s : V3,
      parseMjcfGeometry "box" (mjcfBoxHalfExtents s) = some (boxGeometry s) := by
    intro s
    show some (boxGeometry { x := s.x / 2 * 2, y := s.y / 2 * 2, z := s.z / 2 * 2 }) =
      some (boxGeometry s)
    rw [div_mul_cancel₀ s.x two_ne_zero, div_mul_cancel₀ s.y two_ne_zero,
      div_mul_cancel₀ s.z two_ne_zero]
  refine ⟨hmain, ?_, hmain _⟩
  show [(0.4 : ℝ) / 2, 0.3 / 2, 0.2 / 2] = [0.2, 0.15, 0.1]
  norm_num

/-- C9: the MJCF quaternion reorderings are mutually inverse: parsing the
scalar-first attribute the exporter emits restores the IR quaternion, and
exporting the quaternion parsed from any four-value attribute restores the
original component order. -/
theorem c9_quat_reorder_inverses :
    (∀ q : Quat, mjcfQuatToIR (mjcfQuatAttr q) = some q) ∧
    (∀ vals : List ℝ, vals.length = 4 →
      (mjcfQuatToIR vals).map mjcfQuatAttr = some vals) := by
  constructor
  · intro q; rfl
  · intro vals h
    obtain ⟨a, b, c, d, rfl⟩ : ∃ a b c d, vals = [a, b, c, d] := by
      rcases vals with _ | ⟨a, vals⟩
      · simp at h
      rcases vals with _ | ⟨b, vals⟩
      · simp at h
      rcases vals with _ | ⟨c, vals⟩
      · simp at h
      rcases vals with _ | ⟨d, vals⟩
      · simp at h
      rcases vals with _ | ⟨e, vals⟩
      · exact ⟨a, b, c, d, rfl⟩
      · simp at h
    rfl

/-- Witness for C9's four-value direction at the identity quaternion
attribute (1,0,0,0). -/
theorem c9_quat_reorder_inverses_witness :
    ([(1:ℝ), 0, 0, 0]).length = 4 ∧
    (mjcfQuatToIR [(1:ℝ), 0, 0, 0]).map mjcfQuatAttr = some [1, 0, 0, 0] := by
  have h : ([(1:ℝ), 0, 0, 0]).length = 4 := by simp
  exact ⟨h, c9_quat_reorder_inverses.2 [1, 0, 0, 0] h⟩

/-- C10: for every MJCF document with a worldbody, the parsed schema's link
list starts with the parser-inserted link literally named "world". -/
theorem c10_world_link_inserted_first (doc : MjcfDoc) (bodies : List MjBody)
    (h : doc.worldbody = some bodies) :
    worldLink.name = "world" ∧
    ∃ rest, (parseMjcf doc).1.links = worldLink :: rest := by
  refine ⟨rfl, ?_⟩
  cases doc with
  | mk model wb =>
    cases h
    exact ⟨(parseBodyList bodies "world").1, rfl⟩

/-- Concrete MJCF document with an empty worldbody. -/
def wit10doc : MjcfDoc := { worldbody := some [] }

/-- Witness for C10 at a document whose worldbody is empty. -/
theorem c10_world_link_inserted_first_witness :
    wit10doc.worldbody = some ([] : List MjBody) ∧
    (worldLink.name = "world" ∧
      ∃ rest, (parseMjcf wit10doc).1.links = worldLink :: rest) :=
  ⟨rfl, c10_world_link_inserted_first wit10doc [] rfl⟩

/-- C4: with validation enabled, a schema whose validate() yields a non-empty
issue list makes convert raise the validation error — whose message contains
every issue of the list — and the pipeline never reaches the exporter, so no
output file is written (the error value of the embedded pipeline). -/
theorem c4_validation_failure_blocks_export (s : Schema) (hne : s.validate ≠ []) :
    convertPipeline s true = Except.error (validationErrorMsg s.validate) ∧
    ∀ issue ∈ s.validate, mentions issue (validationErrorMsg s.validate) = true := by
  constructor
  · cases hv : s.validate with
    | nil => exact absurd hv hne
    | cons i rest =>
      unfold convertPipeline
      rw [hv]
      rfl
  · intro issue hmem
    exact mentions_validationErrorMsg s.validate issue hmem

/-- Schema with a duplicated link name, so validate() is non-empty. -/
def cx4 : Schema := { links := [{ name := "a" }, { name := "a" }] }

/-- Witness for C4 at a schema with duplicate link names. -/
theorem c4_validation_failure_blocks_export_witness :
    cx4.validate ≠ [] ∧
    (convertPipeline cx4 true = Except.error (validationErrorMsg cx4.validate) ∧
      ∀ issue ∈ cx4.validate, mentions issue (validationErrorMsg cx4.validate) = true) := by
  have h : cx4.validate ≠ [] := by decide
  exact ⟨h, c4_validation_failure_blocks_export cx4 h⟩

/-- Schema whose only joint hangs its link below the sentinel "world", which
is not a declared link. -/
def cx5 : Schema :=
  { links := [{ name := "base" }],
    joints := [{ name := "anchor", type := .fixed,
                 parent_link := "world", child_link := "base" }] }

/-- C5 fails as stated: CommonSchema.validate gives the literal "world" no
special treatment, so a joint whose parent_link is "world" (not a declared
link) is reported as an unknown-link reference even though the claim says it
must be accepted. -/
theorem c5_counterexample :
    cx5.joints.map Joint.parent_link = ["world"] ∧
    "Joint 'anchor' references unknown parent link: world" ∈ cx5.validate := by
  decide

/-- C5 amended: validate reports the unknown-parent (resp. unknown-child)
issue for a joint if and only if that endpoint is not a declared link name —
with no exemption for the literal "world" (only the URDF parser's own
reference check exempts "world", and only for parent links). -/
theorem c5_amended_unknown_link_iff (s : Schema) (j : Joint) :
    ((("Joint '" ++ j.name ++ "' references unknown parent link: " ++ j.parent_link) ∈
        jointRefIssues s j) ↔ s.get_link j.parent_link = none) ∧
    ((("Joint '" ++ j.name ++ "' references unknown child link: " ++ j.child_link) ∈
        jointRefIssues s j) ↔ s.get_link j.child_link = none) := by
  have hne := parent_child_issue_ne j.name j.parent_link j.child_link
  unfold jointRefIssues
  constructor
  · rw [List.mem_append]
    constructor
    · rintro (h1 | h2)
      · by_cases hp : (s.get_link j.parent_link).isNone
        · exact Option.isNone_iff_eq_none.mp hp
        · rw [if_neg hp] at h1
          exact absurd h1 (List.not_mem_nil _)
      · by_cases hc2 : (s.get_link j.child_link).isNone
        · rw [if_pos hc2] at h2
          exact absurd (List.mem_singleton.mp h2) hne
        · rw [if_neg hc2] at h2
          exact absurd h2 (List.not_mem_nil _)
    · intro hnone
      left
      rw [if_pos (Option.isNone_iff_eq_none.mpr hnone)]
      exact List.mem_singleton.mpr rfl
  · rw [List.mem_append]
    constructor
    · rintro (h1 | h2)
      · by_cases hp : (s.get_link j.parent_link).isNone
        · rw [if_pos hp] at h1
          exact absurd (List.mem_singleton.mp h1).symm hne
        · rw [if_neg hp] at h1
          exact absurd h1 (List.not_mem_nil _)
      · by_cases hc2 : (s.get_link j.child_link).isNone
        · exact Option.isNone_iff_eq_none.mp hc2
        · rw [if_neg hc2] at h2
          exact absurd h2 (List.not_mem_nil _)
    · intro hnone
      right
      rw [if_pos (Option.isNone_iff_eq_none.mpr hnone)]
      exact List.mem_singleton.mpr rfl

/-- C3 fails as stated: this schema's joint edge set is the single acyclic
edge base-to-world, yet get_root_links returns no link at all, because the
only link is a joint's child and the parent "world" is not a declared link. -/
theorem c3_counterexample :
    AcyclicJoints cx3 ∧ cx3.get_root_links = [] := by
  constructor
  · exact acyclic_of_single_joint cx3
      { name := "anchor", type := .fixed, parent_link := "world", child_link := "base" }
      rfl (by decide)
  · rfl

/-- C3 amended: for a schema whose joints form a tree (acyclic child-to-
parent edge set), with at least one link, and in which every joint's
parent_link names a declared link, get_root_links returns at least one link
and every link is reachable from some returned root by following parent
edges downward. -/
theorem c3_root_links_amended (s : Schema)
    (hac : AcyclicJoints s) (hne : s.links ≠ [])
    (hpar : ∀ j ∈ s.joints, j.parent_link ∈ s.links.map Link.name) :
    s.get_root_links ≠ [] ∧
    ∀ l ∈ s.links, ∃ r ∈ s.get_root_links,
      Relation.ReflTransGen (stepDn s) r.name l.name := by
  have hroot : ∀ l ∈ s.links, ∃ r ∈ s.get_root_links,
      Relation.ReflTransGen (stepDn s) r.name l.name := by
    intro l hl
    have hname : l.name ∈ s.links.map Link.name := List.mem_map_of_mem _ hl
    obtain ⟨rt, hrt_mem, hrt_nochild, hrt_reach⟩ := chase_to_root s hac hpar l.name hname
    obtain ⟨r, hr_mem, hr_name⟩ := List.mem_map.mp hrt_mem
    have hnotchild : r.name ∉ s.joints.map (fun j => j.child_link) := by
      rw [hr_name]
      intro hmem
      obtain ⟨j, hj, hjc⟩ := List.mem_map.mp hmem
      exact hrt_nochild j hj hjc
    refine ⟨r, ?_, ?_⟩
    · unfold Schema.get_root_links
      rw [List.mem_filter]
      exact ⟨hr_mem, by simpa using hnotchild⟩
    · rw [hr_name]
      exact reflTransGen_up_down s hrt_reach
  constructor
  · obtain ⟨l0, hl0⟩ : ∃ l0, l0 ∈ s.links := by
      cases hlinks : s.links with
      | nil => exact absurd hlinks hne
      | cons a t => exact ⟨a, hlinks ▸ List.mem_cons_self a t⟩
    obtain ⟨r, hr, _⟩ := hroot l0 hl0
    exact List.ne_nil_of_mem hr
  · exact hroot

/-- Witness for C3's amended statement at a two-link, one-joint schema. -/
theorem c3_root_links_amended_witness :
    AcyclicJoints wit3 ∧ wit3.links ≠ [] ∧
    (∀ j ∈ wit3.joints, j.parent_link ∈ wit3.links.map Link.name) ∧
    (wit3.get_root_links ≠ [] ∧
      ∀ l ∈ wit3.links, ∃ r ∈ wit3.get_root_links,
        Relation.ReflTransGen (stepDn wit3) r.name l.name) := by
  have hac : AcyclicJoints wit3 :=
    acyclic_of_single_joint wit3
      { name := "elbow", type := .revolute,
        parent_link := "arm_base", child_link := "arm_tip" }
      rfl (by decide)
  have hne : wit3.links ≠ [] := by simp [wit3]
  have hpar : ∀ j ∈ wit3.joints, j.parent_link ∈ wit3.links.map Link.name := by decide
  exact ⟨hac, hne, hpar, c3_root_links_amended wit3 hac hne hpar⟩

/-- The kinematic-tree validation reports exactly the circular-dependency
error whenever some nonempty set of declared link names (other than "world")
is closed under the child-to-parent map — the shape of any joint cycle. -/
theorem urdfKinTreeErrors_cycle (links : List Link) (joints : List Joint)
    (C : Finset String) (hCne : C.Nonempty)
    (hcl : ∀ c ∈ C, ∃ p ∈ C,
      dictLookup (joints.map (fun j => (j.child_link, j.parent_link))) c = some p)
    (hw : "world" ∉ C)
    (hsub : ∀ c ∈ C, c ∈ links.map Link.name) :
    urdfKinTreeErrors links joints =
      ["Circular dependency detected in kinematic tree"] := by
  obtain ⟨c0, hc0⟩ := hCne
  have hscan := cycleScan_true (joints.map (fun j => (j.child_link, j.parent_link))) C
    hcl hw (links.map Link.name) [] ⟨c0, hc0, hsub c0 hc0⟩ (fun c _ => List.not_mem_nil c)
  simp only [urdfKinTreeErrors]
  rw [if_pos hscan]

/-- C7: for every URDF document whose parsed joints contain a cycle in the
child_link to parent_link map — witnessed by a nonempty set of declared link
names, none of them "world", closed under that map — parsing completes (the
embedded parse is total) and the parse context's error list contains the
circular-dependency error. -/
theorem c7_cycle_detected (doc : UrdfDoc) (C : Finset String)
    (hCne : C.Nonempty)
    (hcl : ∀ c ∈ C, ∃ p ∈ C,
      dictLookup ((parseUrdf doc).1.joints.map (fun j => (j.child_link, j.parent_link)))
        c = some p)
    (hw : "world" ∉ C)
    (hsub : ∀ c ∈ C, c ∈ (parseUrdf doc).1.links.map Link.name) :
    "Circular dependency detected in kinematic tree" ∈ (parseUrdf doc).2 := by
  have key := urdfKinTreeErrors_cycle (parseUrdfLinks doc.links).1
    (parseUrdfJoints ((parseUrdfLinks doc.links).1.map Link.name) doc.joints).1
    C hCne hcl hw hsub
  show "Circular dependency detected in kinematic tree" ∈
    ((if doc.name.getD "robot" = "" then ["Robot name is required"] else []) ++
      (parseUrdfLinks doc.links).2 ++
      (parseUrdfJoints ((parseUrdfLinks doc.links).1.map Link.name) doc.joints).2 ++
      urdfKinTreeErrors (parseUrdfLinks doc.links).1
        (parseUrdfJoints ((parseUrdfLinks doc.links).1.map Link.name) doc.joints).1)
  rw [key]
  simp

/-- URDF document with two declared links and two joints closing a cycle
between them. -/
def wit7doc : UrdfDoc :=
  { name := some "bot",
    links := [⟨some "a"⟩, ⟨some "b"⟩],
    joints := [⟨some "j1", some "revolute", some "a", some "b"⟩,
               ⟨some "j2", some "revolute", some "b", some "a"⟩] }

/-- The two link names forming wit7doc's joint cycle. -/
def wit7C : Finset String := {"a", "b"}

/-- Witness for C7 at a two-link document whose joints make each link the
child of the other. -/
theorem c7_cycle_detected_witness :
    wit7C.Nonempty ∧
    (∀ c ∈ wit7C, ∃ p ∈ wit7C,
      dictLookup ((parseUrdf wit7doc).1.joints.map (fun j => (j.child_link, j.parent_link)))
        c = some p) ∧
    "world" ∉ wit7C ∧
    (∀ c ∈ wit7C, c ∈ (parseUrdf wit7doc).1.links.map Link.name) ∧
    "Circular dependency detected in kinematic tree" ∈ (parseUrdf wit7doc).2 := by
  have h1 : wit7C.Nonempty := ⟨"a", by decide⟩
  have h2 : ∀ c ∈ wit7C, ∃ p ∈ wit7C,
      dictLookup ((parseUrdf wit7doc).1.joints.map (fun j => (j.child_link, j.parent_link)))
        c = some p := by decide
  have h3 : "world" ∉ wit7C := by decide
  have h4 : ∀ c ∈ wit7C, c ∈ (parseUrdf wit7doc).1.links.map Link.name := by decide
  exact ⟨h1, h2, h3, h4, c7_cycle_detected wit7doc wit7C h1 h2 h3 h4⟩

/-- URDF document in which two joints both name the undeclared link "ghost"
as their child. -/
def cx6doc : UrdfDoc :=
  { name := some "bot",
    links := [⟨some "a"⟩],
    joints := [⟨some "j1", some "fixed", some "a", some "ghost"⟩,
               ⟨some "j2", some "fixed", some "a", some "ghost"⟩] }

/-- C6 fails as stated: this document contains a joint whose child attribute
names the undeclared link "ghost", yet the parse context's error list holds
two entries mentioning that name (one per offending joint), not exactly
one. -/
theorem c6_counterexample :
    (∃ e ∈ cx6doc.joints, e.child = some "ghost") ∧
    "ghost" ∉ (parseUrdf cx6doc).1.links.map Link.name ∧
    ((parseUrdf cx6doc).2.filter (fun e => mentions "ghost" e)).length = 2 := by
  decide

theorem parseUrdfLink_no_error (e : UrdfLinkEl) (he : e.name.isSome) :
    (parseUrdfLink e).2 = [] := by
  cases e with
  | mk nm =>
    cases nm with
    | none => simp at he
    | some n => rfl

theorem contains_true_of_mem (l : List String) (x : String) (h : x ∈ l) :
    l.contains x = true := by
  simpa [List.contains] using h

theorem contains_false_of_not_mem (l : List String) (x : String) (h : x ∉ l) :
    ¬ (l.contains x = true) := by
  simpa [List.contains] using h

/-- A joint element with all attributes present, a mapped type, a parent that
resolves (or is "world") and a child that does not resolve produces the joint
plus exactly its one child-not-found error. -/
theorem parseUrdfJoint_child_error (link_names : List String) (e : UrdfJointEl)
    (jn jt p c : String) (ty : JointType)
    (hjn : e.name = some jn) (hjt : e.type = some jt)
    (hty : urdfTypeMap jt = some ty)
    (hjp : e.parent = some p) (hjc : e.child = some c)
    (hpok : sanitizeName p ∈ link_names ∨ sanitizeName p = "world")
    (hcbad : sanitizeName c ∉ link_names) :
    (parseUrdfJoint link_names e).2 =
      [jn ++ ": Child link '" ++ sanitizeName c ++ "' not found"] := by
  cases e with
  | mk en et ep ec =>
    simp only at hjn hjt hjp hjc
    subst hjn; subst hjt; subst hjp; subst hjc
    simp only [parseUrdfJoint, hty]
    have hpcond : ¬ (¬ (link_names.contains (sanitizeName p) = true) ∧
        sanitizeName p ≠ "world") := by
      rcases hpok with hm | hw
      · rintro ⟨h1, _⟩
        exact h1 (contains_true_of_mem _ _ hm)
      · rintro ⟨_, h2⟩
        exact h2 hw
    have hccond : ¬ (link_names.contains (sanitizeName c) = true) :=
      contains_false_of_not_mem _ _ hcbad
    rw [if_neg hpcond, if_pos hccond]
    rfl

/-- C6 amended: parsing never aborts, and each joint whose child attribute
fails to resolve contributes its own error entry; for a document whose only
element-level problem is a single joint with an unresolvable child (and no
kinematic cycle), the error list is exactly that joint's child-not-found
entry, which mentions the unresolved name — so exactly one entry mentions
it. -/
theorem c6_unresolved_child_single_error (doc : UrdfDoc)
    (pre post : List UrdfJointEl) (j : UrdfJointEl)
    (jn jt p c : String) (ty : JointType)
    (hjs : doc.joints = pre ++ j :: post)
    (hrobot : doc.name.getD "robot" ≠ "")
    (hlinks : ∀ l ∈ doc.links, l.name.isSome)
    (hjn : j.name = some jn) (hjt : j.type = some jt)
    (hty : urdfTypeMap jt = some ty)
    (hjp : j.parent = some p) (hjc : j.child = some c)
    (hpok : sanitizeName p ∈ (parseUrdfLinks doc.links).1.map Link.name ∨
      sanitizeName p = "world")
    (hcbad : sanitizeName c ∉ (parseUrdfLinks doc.links).1.map Link.name)
    (hclean : ∀ e ∈ pre ++ post,
      (parseUrdfJoint ((parseUrdfLinks doc.links).1.map Link.name) e).2 = [])
    (hnocyc : urdfKinTreeErrors (parseUrdfLinks doc.links).1
      (parseUrdfJoints ((parseUrdfLinks doc.links).1.map Link.name) doc.joints).1 = []) :
    (parseUrdf doc).2 = [jn ++ ": Child link '" ++ sanitizeName c ++ "' not found"] ∧
    mentions (sanitizeName c)
      (jn ++ ": Child link '" ++ sanitizeName c ++ "' not found") = true := by
  constructor
  · have hname : (if doc.name.getD "robot" = "" then ["Robot name is required"]
        else ([] : List String)) = [] := if_neg hrobot
    have hlres : (parseUrdfLinks doc.links).2 = [] := by
      show (doc.links.map (fun e => (parseUrdfLink e).2)).flatten = []
      rw [List.flatten_eq_nil_iff]
      intro l hl
      obtain ⟨e, he, rfl⟩ := List.mem_map.mp hl
      exact parseUrdfLink_no_error e (hlinks e he)
    have hjerr := parseUrdfJoint_child_error
      ((parseUrdfLinks doc.links).1.map Link.name) j jn jt p c ty
      hjn hjt hty hjp hjc hpok hcbad
    have hjres : (parseUrdfJoints ((parseUrdfLinks doc.links).1.map Link.name)
        doc.joints).2 = [jn ++ ": Child link '" ++ sanitizeName c ++ "' not found"] := by
      show (doc.joints.map
          (fun e => (parseUrdfJoint ((parseUrdfLinks doc.links).1.map Link.name) e).2)).flatten = _
      rw [hjs, List.map_append, List.map_cons, List.flatten_append, List.flatten_cons]
      have hpre : (pre.map
          (fun e => (parseUrdfJoint ((parseUrdfLinks doc.links).1.map Link.name) e).2)).flatten
          = [] := by
        rw [List.flatten_eq_nil_iff]
        intro l hl
        obtain ⟨e, he, rfl⟩ := List.mem_map.mp hl
        exact hclean e (List.mem_append_left _ he)
      have hpost : (post.map
          (fun e => (parseUrdfJoint ((parseUrdfLinks doc.links).1.map Link.name) e).2)).flatten
          = [] := by
        rw [List.flatten_eq_nil_iff]
        intro l hl
        obtain ⟨e, he, rfl⟩ := List.mem_map.mp hl
        exact hclean e (List.mem_append_right _ he)
      rw [hpre, hjerr, hpost]
      simp
    show ((if doc.name.getD "robot" = "" then ["Robot name is required"] else []) ++
        (parseUrdfLinks doc.links).2 ++
        (parseUrdfJoints ((parseUrdfLinks doc.links).1.map Link.name) doc.joints).2 ++
        urdfKinTreeErrors (parseUrdfLinks doc.links).1
          (parseUrdfJoints ((parseUrdfLinks doc.links).1.map Link.name) doc.joints).1) = _
    rw [hname, hlres, hjres, hnocyc]
    simp
  · refine mentions_of_data_shape (sanitizeName c) _
      ((jn ++ ": Child link '").data) ("' not found".data) ?_
    simp [List.append_assoc]

/-- URDF document with one declared link and one joint whose child attribute
names the undeclared link "ghost". -/
def wit6doc : UrdfDoc :=
  { name := some "bot",
    links := [⟨some "base"⟩],
    joints := [⟨some "j1", some "fixed", some "base", some "ghost"⟩] }

/-- Witness for C6's amended statement at a document with exactly one
unresolved child reference. -/
theorem c6_unresolved_child_single_error_witness :
    wit6doc.joints = [] ++ (⟨some "j1", some "fixed", some "base", some "ghost"⟩ :: []) ∧
    wit6doc.name.getD "robot" ≠ "" ∧
    sanitizeName "ghost" ∉ (parseUrdfLinks wit6doc.links).1.map Link.name ∧
    ((parseUrdf wit6doc).2 =
        ["j1" ++ ": Child link '" ++ sanitizeName "ghost" ++ "' not found"] ∧
      mentions (sanitizeName "ghost")
        ("j1" ++ ": Child link '" ++ sanitizeName "ghost" ++ "' not found") = true) := by
  refine ⟨rfl, by decide, by decide, ?_⟩
  exact c6_unresolved_child_single_error wit6doc []
    [] ⟨some "j1", some "fixed", some "base", some "ghost"⟩
    "j1" "fixed" "base" "ghost" JointType.fixed
    rfl (by decide) (by intro l hl; simp [wit6doc] at hl; subst hl; rfl)
    rfl rfl rfl rfl rfl
    (Or.inl (by decide)) (by decide)
    (by intro e he; simp at he)
    (by decide)

/-- The name attribute of a body element. -/
def MjBody.nameAttr : MjBody → Option String
  | .mk n _ _ => n

/-- The joint child element of a body element. -/
def MjBody.jointAttr : MjBody → Option MjJointEl
  | .mk _ j _ => j

theorem parseBodyHierarchy_self_fixed (b : MjBody) (pl : String) (nm : String)
    (hnm : b.nameAttr = some nm) (hnj : b.jointAttr = none) (hpl : pl ≠ "world") :
    ({ name := sanitizeName nm ++ "_fixed", type := .fixed,
       parent_link := pl, child_link := sanitizeName nm } : Joint) ∈
      (parseBodyHierarchy b pl).2.1 := by
  cases b with
  | mk n j ch =>
    simp only [MjBody.nameAttr] at hnm
    simp only [MjBody.jointAttr] at hnj
    subst hnm
    subst hnj
    simp [parseBodyHierarchy, hpl]

theorem parseBodyList_sub (pl : String) (b : MjBody) (x : Joint)
    (hx : x ∈ (parseBodyHierarchy b pl).2.1) :
    ∀ bs : List MjBody, b ∈ bs → x ∈ (parseBodyList bs pl).2.1 := by
  intro bs
  induction bs with
  | nil => intro hb; cases hb
  | cons hd t ih =>
    intro hb
    rcases List.mem_cons.mp hb with rfl | hbt
    · simp only [parseBodyList]
      exact List.mem_append_left _ hx
    · simp only [parseBodyList]
      exact List.mem_append_right _ (ih hbt)

theorem parseBodyHierarchy_child_sub (nm : String) (jel : Option MjJointEl)
    (children : List MjBody) (pl : String) (c : MjBody) (hc : c ∈ children)
    (x : Joint) (hx : x ∈ (parseBodyHierarchy c (sanitizeName nm)).2.1) :
    x ∈ (parseBodyHierarchy (.mk (some nm) jel children) pl).2.1 := by
  simp only [parseBodyHierarchy]
  exact List.mem_append_right _ (parseBodyList_sub (sanitizeName nm) c x hx children hc)

theorem occ_joints_sub (root : MjBody) (rp : String) (b : MjBody) (pl : String)
    (hocc : OccIn root rp b pl) :
    ∀ x ∈ (parseBodyHierarchy b pl).2.1, x ∈ (parseBodyHierarchy root rp).2.1 := by
  induction hocc with
  | here => intro x hx; exact hx
  | child hmid hc ih =>
    intro x hx
    exact ih _ (parseBodyHierarchy_child_sub _ _ _ _ _ hc x hx)

/-- C8 amended: a body nested below another body (not directly under the
worldbody) that lacks an explicit joint child element is linked to its parent
by a synthesized Fixed joint named body_fixed; bodies directly under the
worldbody (parent "world") receive no joint at all. -/
theorem c8_fixed_joint_synthesized (doc : MjcfDoc) (bodies : List MjBody)
    (hwb : doc.worldbody = some bodies)
    (root : MjBody) (hroot : root ∈ bodies)
    (b : MjBody) (pl : String) (hocc : OccIn root "world" b pl)
    (hpl : pl ≠ "world") (nm : String)
    (hnm : b.nameAttr = some nm) (hnj : b.jointAttr = none) :
    ({ name := sanitizeName nm ++ "_fixed", type := .fixed,
       parent_link := pl, child_link := sanitizeName nm } : Joint) ∈
      (parseMjcf doc).1.joints := by
  have h1 := parseBodyHierarchy_self_fixed b pl nm hnm hnj hpl
  have h2 := occ_joints_sub root "world" b pl hocc _ h1
  have h3 := parseBodyList_sub "world" root _ h2 bodies hroot
  cases doc with
  | mk model wb =>
    cases hwb
    exact h3

/-- MJCF document whose worldbody holds a single jointless body. -/
def cx8doc : MjcfDoc := { worldbody := some [MjBody.mk (some "base") none []] }

/-- C8 fails as stated: the body "base" sits directly under the worldbody
with no explicit joint child, and the parser produces no joint at all for it
(the parsed schema has the world and base links but an empty joint list), so
it is not linked to its parent by a synthesized Fixed joint. -/
theorem c8_counterexample :
    (MjBody.mk (some "base") none []).jointAttr = none ∧
    (parseMjcf cx8doc).1.links.map Link.name = ["world", "base"] ∧
    (parseMjcf cx8doc).1.joints = [] := by
  have hsan : sanitizeName "base" = "base" := rfl
  refine ⟨rfl, ?_, ?_⟩
  · simp [parseMjcf, cx8doc, parseBodyList, parseBodyHierarchy, worldLink, hsan]
  · simp [parseMjcf, cx8doc, parseBodyList, parseBodyHierarchy]

/-- MJCF document with a nested jointless body (head below torso). -/
def wit8doc : MjcfDoc :=
  { worldbody := some
      [MjBody.mk (some "torso") none [MjBody.mk (some "head") none []]] }

/-- Witness for C8's amended statement at the nested body "head" whose
parent body is "torso". -/
theorem c8_fixed_joint_synthesized_witness :
    wit8doc.worldbody =
      some [MjBody.mk (some "torso") none [MjBody.mk (some "head") none []]] ∧
    OccIn (MjBody.mk (some "torso") none [MjBody.mk (some "head") none []]) "world"
      (MjBody.mk (some "head") none []) "torso" ∧
    ("torso" : String) ≠ "world" ∧
    ({ name := sanitizeName "head" ++ "_fixed", type := .fixed,
       parent_link := "torso", child_link := sanitizeName "head" } : Joint) ∈
      (parseMjcf wit8doc).1.joints := by
  have hocc0 : OccIn (MjBody.mk (some "torso") none [MjBody.mk (some "head") none []])
      "world" (MjBody.mk (some "head") none []) (sanitizeName "torso") :=
    OccIn.child (OccIn.here _ _) (List.mem_singleton.mpr rfl)
  have hocc : OccIn (MjBody.mk (some "torso") none [MjBody.mk (some "head") none []])
      "world" (MjBody.mk (some "head") none []) "torso" := hocc0
  refine ⟨rfl, hocc, by decide, ?_⟩
  exact c8_fixed_joint_synthesized wit8doc
    [MjBody.mk (some "torso") none [MjBody.mk (some "head") none []]] rfl
    (MjBody.mk (some "torso") none [MjBody.mk (some "head") none []])
    (List.mem_singleton.mpr rfl)
    (MjBody.mk (some "head") none []) "torso" hocc (by decide) "head" rfl rfl

end RFC
